import Mathlib

/-!
Verification development for the photo-reorganizer repository's
"Sequential Rename Instruction Engine" surface.

The engine lives in `PhotoGrid.tsx` (the variant with delete support):

* `loadProductsFromAPI` applies the stored rename instructions to each
  product's photos (a single map lookup per filename), re-sorts by the
  numeric filename prefix, and renumbers `order` fields;
* `handleDragEnd` moves a photo with dnd-kit's `arrayMove`, and records the
  two swap entries `plan[sku][activeName] = overName`,
  `plan[sku][overName] = activeName` directly into a shallow copy of the
  instruction object;
* `handlePhotoDelete` removes a photo, records a shift entry
  `filename -> i.jpg` for every later photo (index `i`, only when the name
  actually changes), and unconditionally records
  `deletedName -> (newLength + 1).jpg` for the deleted photo.

Plans are modelled as association lists with JavaScript-object semantics
(unique keys; assignment overwrites in place or appends at the end), photos
as records of `id`, `filename`, `order`.
-/

/-- One photo, as in `types/index.ts`: stable `id`, current `filename`,
1-based `order`. -/
structure Photo where
  id : String
  filename : String
  order : Nat
deriving DecidableEq

/-- One product: a `sku` and its ordered photo list. -/
structure Product where
  sku : String
  photos : List Photo
deriving DecidableEq

/-- A per-collection rename mapping, old filename to new filename
(a JS object in the source). -/
abbrev InnerMap := List (String × String)

/-- The whole instruction set: sku to per-collection mapping. -/
abbrev RenamePlan := List (String × InnerMap)

/-- The component state of `PhotoGrid`: the `products` and the
`renameInstructions` React state. -/
structure GridState where
  products : List Product
  plan : RenamePlan
deriving DecidableEq

/-- The `over` element of a dnd-kit drag event: its id and the sku carried
in `over.data.current.sku`. -/
structure DragOver where
  id : String
  sku : String
deriving DecidableEq

/-- A dnd-kit drag-end event as `handleDragEnd` consumes it: the active
element's id and sku, and the optional `over` element. -/
structure DragEvent where
  activeId : String
  activeSku : String
  over : Option DragOver
deriving DecidableEq

/-- JS-object property read `m[k]`: the value stored at key `k`, if any
(keys are unique in every object the component builds). -/
def objGet {κ α : Type} [DecidableEq κ] : List (κ × α) → κ → Option α
  | [], _ => none
  | (k', v') :: m, k => if k' = k then some v' else objGet m k

/-- JS-object property write `m[k] = v`: overwrite the existing entry for
`k` in place, else append a new entry at the end. -/
def objSet {κ α : Type} [DecidableEq κ] : List (κ × α) → κ → α → List (κ × α)
  | [], k, v => [(k, v)]
  | (k', v') :: m, k, v => if k' = k then (k, v) :: m else (k', v') :: objSet m k v

/-- Look a filename up through a plan: the collection's mapping, then the
name. -/
def planLookup (plan : RenamePlan) (sku name : String) : Option String :=
  (objGet plan sku).bind (fun inner => objGet inner name)

/-- Accumulate the leading decimal digits of a character list. -/
def fileNumAux : List Char → Nat → Nat
  | [], acc => acc
  | c :: cs, acc => if c.isDigit then fileNumAux cs (acc * 10 + (c.toNat - 48)) else acc

/-- The numeric prefix of a positional filename, as
`parseInt(filename.split(".")[0])` computes it on the names the component
handles: the value of the digits before the first non-digit (a `.` in every
name here; JS NaN, which cannot arise on the names used, is modelled
as 0). -/
def fileNum (s : String) : Nat := fileNumAux s.data 0

/-- Stable insertion into a list sorted by `fileNum` of the filename, the
order a stable JS `sort` with comparator `aNum - bNum` produces. -/
def insertSorted (a : Photo) : List Photo → List Photo
  | [] => [a]
  | b :: bs =>
    if fileNum a.filename ≤ fileNum b.filename then a :: b :: bs
    else b :: insertSorted a bs

/-- Sort photos by the numeric prefix of their filename (stable), as the
`sort` call in `loadProductsFromAPI` does. -/
def sortByNum : List Photo → List Photo
  | [] => []
  | a :: as => insertSorted a (sortByNum as)

/-- Renumber `order` fields 1..N in list order, as
`photos.map((photo, index) => ({ ...photo, order: index + 1 }))`. -/
def renumber (photos : List Photo) : List Photo :=
  photos.enum.map (fun p => { p.2 with order := p.1 + 1 })

/-- The per-filename resolution `loadProductsFromAPI` performs:
`productInstructions[photo.filename] || photo.filename` — one single lookup
in the collection's mapping, falling back to the name itself. -/
def resolveName (inner : InnerMap) (name : String) : String :=
  (objGet inner name).getD name

/-- The reconciliation step of `loadProductsFromAPI` for one collection:
rename every photo by one lookup in the mapping, sort by numeric prefix,
renumber. -/
def applyInstructions (inner : InnerMap) (photos : List Photo) : List Photo :=
  renumber (sortByNum (photos.map
    (fun ph => { ph with filename := resolveName inner ph.filename })))

/-- Reconciliation across products, as the `data.products.map` in
`loadProductsFromAPI`: products without instructions pass through. -/
def reconcileProducts (plan : RenamePlan) (products : List Product) : List Product :=
  products.map (fun product =>
    match objGet plan product.sku with
    | none => product
    | some inner => { product with photos := applyInstructions inner product.photos })

/-- dnd-kit's `arrayMove`: remove the element at `i`, insert it at `j`
(both indices are in range at every call site, guarded by `findIndex`
checks; out-of-range `i` returns the list unchanged). -/
def arrayMove {α : Type} (l : List α) (i j : Nat) : List α :=
  match l[i]? with
  | none => l
  | some a => (l.eraseIdx i).take j ++ a :: (l.eraseIdx i).drop j

/-- The instruction update of `handleDragEnd` (lines writing
`newInstructions[activeSku][activePhoto.filename] = overPhoto.filename` and
the converse): fetch the collection's mapping (empty if absent), overwrite
the two keys, store the mapping back.  This is the value-level effect of
the JS object mutation. -/
def swapInstructions (plan : RenamePlan) (sku activeName overName : String) :
    RenamePlan :=
  let inner0 := (objGet plan sku).getD []
  let inner1 := objSet inner0 activeName overName
  let inner2 := objSet inner1 overName activeName
  objSet plan sku inner2

/-- `handleDragEnd`: all guards in source order (`!over`,
`active.id === over.id`, cross-sku, product lookup, photo index lookups),
then the `arrayMove` reorder with renumbering, then the swap instructions
computed from the pre-move photo array. -/
def handleDragEnd (st : GridState) (ev : DragEvent) : GridState :=
  match ev.over with
  | none => st
  | some over =>
    if ev.activeId = over.id then st
    else if ev.activeSku ≠ over.sku then st
    else
      match st.products.findIdx? (fun p => p.sku == ev.activeSku) with
      | none => st
      | some productIndex =>
        match st.products[productIndex]? with
        | none => st
        | some product =>
          match product.photos.findIdx? (fun p => p.id == ev.activeId),
                product.photos.findIdx? (fun p => p.id == over.id) with
          | some activeIndex, some overIndex =>
            match product.photos[activeIndex]?, product.photos[overIndex]? with
            | some activePhoto, some overPhoto =>
              let newPhotos := arrayMove product.photos activeIndex overIndex
              let updatedProduct := { product with photos := renumber newPhotos }
              { products := st.products.set productIndex updatedProduct,
                plan := swapInstructions st.plan ev.activeSku
                  activePhoto.filename overPhoto.filename }
            | _, _ => st
          | _, _ => st

/-- Index-value pairs starting at index `n`: the shape of the JS loop
`for (let i = deleteIndex + 1; i < photos.length; i++)` over `photos[i]`. -/
def withIdx {α : Type} : Nat → List α → List (Nat × α)
  | _, [] => []
  | n, a :: as => (n, a) :: withIdx (n + 1) as

/-- One iteration of the shift loop in `handlePhotoDelete`: photo at index
`i` is renamed to `i + ".jpg"`, and the entry is recorded only when the
filename actually changes. -/
def shiftStep (acc : InnerMap) (p : Nat × Photo) : InnerMap :=
  let newFilename := toString p.1 ++ ".jpg"
  if p.2.filename ≠ newFilename then objSet acc p.2.filename newFilename else acc

/-- The whole shift loop folded over index-photo pairs. -/
def shiftFold (l : List (Nat × Photo)) (inner : InnerMap) : InnerMap :=
  l.foldl shiftStep inner

/-- The shift loop of `handlePhotoDelete`, iterating over the photos at
indices `deleteIndex + 1 .. photos.length - 1`. -/
def deleteShift (photos : List Photo) (deleteIndex : Nat) (inner : InnerMap) :
    InnerMap :=
  shiftFold (withIdx (deleteIndex + 1) (photos.drop (deleteIndex + 1))) inner

/-- The full per-collection mapping a single `DeleteAt` compiles when no
instructions were accumulated before: the shift entries plus the
unconditional relocation of the deleted photo to `(lastPosition + 1).jpg`. -/
def compiledDelete (photos : List Photo) (deleteIndex : Nat)
    (deletedFilename : String) (lastPosition : Nat) : InnerMap :=
  objSet (deleteShift photos deleteIndex [])
    deletedFilename (toString (lastPosition + 1) ++ ".jpg")

/-- `handlePhotoDelete`: product and photo lookups with their guards, photo
removal by `filter`, the shift loop, the unconditional relocation entry for
the deleted photo with `lastPosition = newPhotos.length`, renumbering, and
the plan update. -/
def handlePhotoDelete (st : GridState) (sku photoId : String) : GridState :=
  match st.products.findIdx? (fun p => p.sku == sku) with
  | none => st
  | some productIndex =>
    match st.products[productIndex]? with
    | none => st
    | some product =>
      match product.photos.find? (fun p => p.id == photoId) with
      | none => st
      | some photoToDelete =>
        let deleteIndex := product.photos.findIdx (fun p => p.id == photoId)
        let newPhotos := product.photos.filter (fun p => p.id ≠ photoId)
        let inner0 := (objGet st.plan sku).getD []
        let inner1 := deleteShift product.photos deleteIndex inner0
        let lastPosition := newPhotos.length
        let inner2 := objSet inner1 photoToDelete.filename
          (toString (lastPosition + 1) ++ ".jpg")
        let updatedProduct := { product with photos := renumber newPhotos }
        { products := st.products.set productIndex updatedProduct,
          plan := objSet st.plan sku inner2 }

/-- A fresh two-photo collection for `sku-1` with no accumulated plan. -/
def gridFresh2 : GridState :=
  ⟨[⟨"sku-1", [⟨"p1", "1.jpg", 1⟩, ⟨"p2", "2.jpg", 2⟩]⟩], []⟩

/-- Dragging photo `p1` over photo `p2` inside `sku-1`. -/
def dragP1P2 : DragEvent := ⟨"p1", "sku-1", some ⟨"p2", "sku-1"⟩⟩

/-- The state after swapping positions 1 and 2 and then dragging the same
photo back, i.e. `Swap(1,2)` compiled and merged twice from a fresh
collection. -/
def gridDoubleSwap : GridState :=
  handleDragEnd (handleDragEnd gridFresh2 dragP1P2) dragP1P2

/-- A fresh three-photo collection, numbered `1.jpg .. 3.jpg`. -/
def photosFresh3 : List Photo :=
  [⟨"p1", "1.jpg", 1⟩, ⟨"p2", "2.jpg", 2⟩, ⟨"p3", "3.jpg", 3⟩]

/-- A fresh three-photo collection state with no accumulated plan. -/
def gridFresh3 : GridState := ⟨[⟨"sku-1", photosFresh3⟩], []⟩

/-- A reloaded session for `sku-1` whose stored plan `f` already swaps the
original names `1.jpg` and `2.jpg`: after reconciliation the photos carry
the effective names, and the plan still holds `f` unapplied. -/
def gridWithSwapPlan : GridState :=
  ⟨[⟨"sku-1", [⟨"a", "1.jpg", 1⟩, ⟨"b", "2.jpg", 2⟩, ⟨"c", "3.jpg", 3⟩]⟩],
   [("sku-1", [("1.jpg", "2.jpg"), ("2.jpg", "1.jpg")])]⟩

/-- Dragging the photo currently named `1.jpg` over the one named `3.jpg`. -/
def dragAC : DragEvent := ⟨"a", "sku-1", some ⟨"c", "sku-1"⟩⟩

/-- A three-photo collection whose third file is a `.png`. -/
def gridWithPng : GridState :=
  ⟨[⟨"sku-1", [⟨"p1", "1.jpg", 1⟩, ⟨"p2", "2.jpg", 2⟩, ⟨"p3", "3.png", 3⟩]⟩], []⟩

/-- A heap of the runtime's inner mapping objects: reference ids to
contents, plus the next fresh reference id. -/
structure Heap where
  store : List (Nat × InnerMap)
  next : Nat
deriving DecidableEq

/-- The outer `renameInstructions` object as it exists at runtime: each sku
holds a reference to a (possibly shared) inner mapping object. -/
abbrev OuterRefs := List (String × Nat)

/-- The plan value the holder of `outer` observes through the heap. -/
def viewPlan (h : Heap) (outer : OuterRefs) : RenamePlan :=
  outer.map (fun p => (p.1, (objGet h.store p.2).getD []))

/-- The heap-level effect of the instruction update in `handleDragEnd`:
`const newInstructions = { ...renameInstructions }` copies the outer object
entry-for-entry but shares every inner object by reference, so when the sku
already has an inner mapping the two writes
`newInstructions[sku][a] = b; newInstructions[sku][b] = a` mutate that
shared object in place; only a sku absent from the plan gets a freshly
allocated `{}` (`if (!newInstructions[activeSku]) newInstructions[activeSku] = {}`). -/
def swapInstructionsHeap (h : Heap) (outer : OuterRefs) (sku a b : String) :
    Heap × OuterRefs :=
  match objGet outer sku with
  | some r =>
    let inner := (objGet h.store r).getD []
    ({ h with store := objSet h.store r (objSet (objSet inner a b) b a) }, outer)
  | none =>
    let r := h.next
    ({ store := objSet h.store r (objSet (objSet [] a b) b a), next := h.next + 1 },
      objSet outer sku r)

/-- A heap with one accumulated inner mapping for `sku-1`, referenced as
object 0: the swap plan `{1.jpg→2.jpg, 2.jpg→1.jpg}`. -/
def heap0 : Heap := ⟨[(0, [("1.jpg", "2.jpg"), ("2.jpg", "1.jpg")])], 1⟩

/-- The previously held outer plan object pointing at that inner object. -/
def outer0 : OuterRefs := [("sku-1", 0)]

theorem objGet_objSet_self {κ α : Type} [DecidableEq κ]
    (m : List (κ × α)) (k : κ) (v : α) : objGet (objSet m k v) k = some v := by
  induction m with
  | nil => simp [objSet, objGet]
  | cons p m ih =>
    obtain ⟨k', v'⟩ := p
    by_cases h : k' = k
    · simp [objSet, objGet, h]
    · simp [objSet, objGet, h, ih]

theorem objGet_objSet_ne {κ α : Type} [DecidableEq κ]
    (m : List (κ × α)) (k k' : κ) (v : α) (h : k ≠ k') :
    objGet (objSet m k v) k' = objGet m k' := by
  induction m with
  | nil => simp [objSet, objGet, h]
  | cons p m ih =>
    obtain ⟨k₀, v₀⟩ := p
    by_cases h₀ : k₀ = k
    · subst h₀
      simp [objSet, objGet, h]
    · simp [objSet, objGet, h₀, ih]

theorem mem_objSet {κ α : Type} [DecidableEq κ]
    (m : List (κ × α)) (k : κ) (v : α) (p : κ × α) (hp : p ∈ objSet m k v) :
    p = (k, v) ∨ p ∈ m := by
  induction m with
  | nil => simpa [objSet] using hp
  | cons q m ih =>
    obtain ⟨k₀, v₀⟩ := q
    by_cases h₀ : k₀ = k
    · simp only [objSet, if_pos h₀, List.mem_cons] at hp
      rcases hp with h | h
      · exact Or.inl h
      · exact Or.inr (List.mem_cons_of_mem _ h)
    · simp only [objSet, if_neg h₀, List.mem_cons] at hp
      rcases hp with h | h
      · exact Or.inr (List.mem_cons.mpr (Or.inl h))
      · rcases ih h with h' | h'
        · exact Or.inl h'
        · exact Or.inr (List.mem_cons_of_mem _ h')

theorem withIdx_map_snd {α : Type} (n : Nat) (l : List α) :
    (withIdx n l).map Prod.snd = l := by
  induction l generalizing n with
  | nil => rfl
  | cons a t ih => simp [withIdx, ih]

theorem withIdx_map_snd_filename (n : Nat) (l : List Photo) :
    (withIdx n l).map (fun q => (Prod.snd q).filename) = l.map Photo.filename := by
  induction l generalizing n with
  | nil => rfl
  | cons a t ih => simp [withIdx, ih]

theorem withIdx_mem (l : List Photo) (n j : Nat) (a : Photo)
    (h : l[j]? = some a) : (n + j, a) ∈ withIdx n l := by
  induction l generalizing n j with
  | nil => simp at h
  | cons b t ih =>
    cases j with
    | zero =>
      simp only [List.getElem?_cons_zero, Option.some.injEq] at h
      subst h
      simp [withIdx]
    | succ j =>
      simp only [List.getElem?_cons_succ] at h
      have hmem := ih (n + 1) j h
      have heq : n + (j + 1) = (n + 1) + j := by omega
      rw [heq]
      exact List.mem_cons_of_mem _ hmem

theorem mapped_nodup_ne {α β : Type} (f : α → β) (l : List α) (i j : Nat)
    (a b : α) (hnd : (l.map f).Nodup) (hi : l[i]? = some a) (hj : l[j]? = some b)
    (hij : i ≠ j) : f a ≠ f b := by
  induction l generalizing i j with
  | nil => simp at hi
  | cons c t ih =>
    rw [List.map_cons, List.nodup_cons] at hnd
    obtain ⟨hnotin, hndt⟩ := hnd
    cases i with
    | zero =>
      simp only [List.getElem?_cons_zero, Option.some.injEq] at hi
      subst hi
      cases j with
      | zero => exact absurd rfl hij
      | succ j =>
        simp only [List.getElem?_cons_succ] at hj
        intro hcontra
        exact hnotin (hcontra ▸ List.mem_map_of_mem f (List.getElem?_mem hj))
    | succ i =>
      simp only [List.getElem?_cons_succ] at hi
      cases j with
      | zero =>
        simp only [List.getElem?_cons_zero, Option.some.injEq] at hj
        subst hj
        intro hcontra
        exact hnotin (hcontra ▸ List.mem_map_of_mem f (List.getElem?_mem hi))
      | succ j =>
        simp only [List.getElem?_cons_succ] at hj
        exact ih i j hndt hi hj (by omega)

theorem nodup_not_mem_drop {α : Type} [DecidableEq α] (l : List α) (i n : Nat)
    (a : α) (hnd : l.Nodup) (hi : l[i]? = some a) (hin : i < n) :
    a ∉ l.drop n := by
  have htd : l.take n ++ l.drop n = l := List.take_append_drop n l
  have hnd' : (l.take n ++ l.drop n).Nodup := by rw [htd]; exact hnd
  have hdisj := List.disjoint_of_nodup_append hnd'
  have hmem : a ∈ l.take n := by
    have : (l.take n)[i]? = some a := by
      rw [List.getElem?_take]
      simp [hin, hi]
    exact List.getElem?_mem this
  exact hdisj hmem

theorem shiftFold_mem (l : List (Nat × Photo)) (inner : InnerMap)
    (p : String × String) (hp : p ∈ shiftFold l inner) :
    p ∈ inner ∨ (∃ n : Nat, p.2 = toString n ++ ".jpg" ∧ p.1 ≠ p.2) := by
  induction l generalizing inner with
  | nil => exact Or.inl hp
  | cons q t ih =>
    obtain ⟨i, ph⟩ := q
    have hp' : p ∈ shiftFold t (shiftStep inner (i, ph)) := hp
    rcases ih _ hp' with h | h
    · simp only [shiftStep] at h
      by_cases hg : ph.filename = toString i ++ ".jpg"
      · rw [if_neg (by simpa using hg)] at h
        exact Or.inl h
      · rw [if_pos (by simpa using hg)] at h
        rcases mem_objSet _ _ _ _ h with h' | h'
        · subst h'
          exact Or.inr ⟨i, rfl, hg⟩
        · exact Or.inl h'
    · exact Or.inr h

theorem shiftFold_objGet_of_forall_ne (l : List (Nat × Photo)) (inner : InnerMap)
    (name : String) (h : ∀ q ∈ l, (Prod.snd q).filename ≠ name) :
    objGet (shiftFold l inner) name = objGet inner name := by
  induction l generalizing inner with
  | nil => rfl
  | cons q t ih =>
    obtain ⟨i, ph⟩ := q
    have hhead : ph.filename ≠ name := h (i, ph) (List.mem_cons_self _ _)
    have htail : ∀ q ∈ t, (Prod.snd q).filename ≠ name :=
      fun q hq => h q (List.mem_cons_of_mem _ hq)
    show objGet (shiftFold t (shiftStep inner (i, ph))) name = _
    rw [ih _ htail]
    simp only [shiftStep]
    by_cases hg : ph.filename = toString i ++ ".jpg"
    · rw [if_neg (by simpa using hg)]
    · rw [if_pos (by simpa using hg), objGet_objSet_ne _ _ _ _ hhead]

theorem shiftFold_objGet_mem (l : List (Nat × Photo)) (inner : InnerMap)
    (i : Nat) (ph : Photo)
    (hnd : (l.map (fun q => (Prod.snd q).filename)).Nodup)
    (hmem : (i, ph) ∈ l) :
    objGet (shiftFold l inner) ph.filename =
      if ph.filename = toString i ++ ".jpg" then objGet inner ph.filename
      else some (toString i ++ ".jpg") := by
  induction l generalizing inner with
  | nil => cases hmem
  | cons q t ih =>
    obtain ⟨j, qq⟩ := q
    rw [List.map_cons, List.nodup_cons] at hnd
    obtain ⟨hnotin, hndt⟩ := hnd
    rcases List.mem_cons.mp hmem with heq | hmem'
    · injection heq with h1 h2
      subst h1
      subst h2
      have hne : ∀ q ∈ t, (Prod.snd q).filename ≠ ph.filename := by
        intro q hq hcontra
        exact hnotin (hcontra ▸ List.mem_map_of_mem _ hq)
      show objGet (shiftFold t (shiftStep inner (i, ph))) ph.filename = _
      rw [shiftFold_objGet_of_forall_ne _ _ _ hne]
      simp only [shiftStep]
      by_cases hg : ph.filename = toString i ++ ".jpg"
      · rw [if_neg (by simpa using hg), if_pos hg]
      · rw [if_pos (by simpa using hg), if_neg hg, objGet_objSet_self]
    · have hphmem : ph.filename ∈ t.map (fun q => (Prod.snd q).filename) :=
        List.mem_map_of_mem _ hmem'
      have hqqne : qq.filename ≠ ph.filename := by
        intro hcontra
        exact hnotin (hcontra ▸ hphmem)
      show objGet (shiftFold t (shiftStep inner (j, qq))) ph.filename = _
      rw [ih _ hndt hmem']
      have hstep : objGet (shiftStep inner (j, qq)) ph.filename =
          objGet inner ph.filename := by
        simp only [shiftStep]
        by_cases hg : qq.filename = toString j ++ ".jpg"
        · rw [if_neg (by simpa using hg)]
        · rw [if_pos (by simpa using hg), objGet_objSet_ne _ _ _ _ hqqne]
      rw [hstep]

/-- C1: the claim says merging a newly compiled mapping `g` into an existing
plan `f` yields the composition expressed over original names.  Evaluating
the code at the failing input: with `f = {1.jpg→2.jpg, 2.jpg→1.jpg}`
accumulated and a new swap `g = {1.jpg→3.jpg, 3.jpg→1.jpg}` of the currently
displayed names, composition demands the merged entry `2.jpg → 3.jpg`
(since `f` sends `2.jpg` to `1.jpg` and `g` sends `1.jpg` to `3.jpg`), but
the code overwrites flat by key: the merged plan maps `2.jpg` to `1.jpg`,
and both `2.jpg` and `3.jpg` to the same final name `1.jpg`. -/
theorem C1_merge_is_flat_overwrite_not_composition :
    objGet (handleDragEnd gridWithSwapPlan dragAC).plan "sku-1" =
      some [("1.jpg", "3.jpg"), ("2.jpg", "1.jpg"), ("3.jpg", "1.jpg")] ∧
    planLookup (handleDragEnd gridWithSwapPlan dragAC).plan "sku-1" "2.jpg" =
      some "1.jpg" ∧
    ("1.jpg" : String) ≠ "3.jpg" ∧
    planLookup (handleDragEnd gridWithSwapPlan dragAC).plan "sku-1" "3.jpg" =
      some "1.jpg" := by
  decide

/-- C2: the claim says reconciling the original raw listing against the
compiled-and-merged plan of op1..opN yields the order of applying op1..opN
to the Sequence Model.  Evaluating the code at the failing input
`Swap(1,2); Swap(1,2)` on a fresh two-photo collection: the in-memory model
is back in the order `[p1, p2]`, but reconciling the original listing
against the merged plan displays `[p2, p1]`. -/
theorem C2_reconciled_order_diverges_from_model :
    (reconcileProducts gridDoubleSwap.plan
        [⟨"sku-1", [⟨"p1", "1.jpg", 1⟩, ⟨"p2", "2.jpg", 2⟩]⟩]).map
        (fun p => p.photos.map Photo.id) = [["p2", "p1"]] ∧
    gridDoubleSwap.products.map (fun p => p.photos.map Photo.id) =
      [["p1", "p2"]] ∧
    (["p2", "p1"] : List String) ≠ ["p1", "p2"] := by
  decide

/-- C3: the claim says compiling `Swap(a,b)` twice and merging both into an
empty plan yields the empty plan.  Evaluating the code at the failing
input: after the double swap the collection's mapping is the non-empty
`{1.jpg→2.jpg, 2.jpg→1.jpg}` — the flat key overwrite rewrites the same two
entries instead of cancelling them. -/
theorem C3_double_swap_plan_nonempty :
    objGet gridDoubleSwap.plan "sku-1" =
      some [("1.jpg", "2.jpg"), ("2.jpg", "1.jpg")] ∧
    ([("1.jpg", "2.jpg"), ("2.jpg", "1.jpg")] : InnerMap) ≠ [] := by
  decide

/-- C4 counterexample: the claim says reconciliation resolves each raw name
by following the mapping to a fixed point and fails with a `CorruptPlan`
error on a cycle.  On the plan `{1.jpg→2.jpg, 2.jpg→3.jpg}` the code
resolves `1.jpg` with one single lookup to `2.jpg`, a name that still has
an outgoing entry — not a fixed point; and on the cyclic plan
`{1.jpg→2.jpg, 2.jpg→1.jpg}` reconciliation silently returns a reordered
listing instead of failing (no error value exists in the code). -/
theorem C4_counterexample_single_lookup :
    resolveName [("1.jpg", "2.jpg"), ("2.jpg", "3.jpg")] "1.jpg" = "2.jpg" ∧
    objGet [("1.jpg", "2.jpg"), ("2.jpg", "3.jpg")] "2.jpg" = some "3.jpg" ∧
    ("2.jpg" : String) ≠ "3.jpg" ∧
    applyInstructions [("1.jpg", "2.jpg"), ("2.jpg", "1.jpg")]
        [⟨"p1", "1.jpg", 1⟩, ⟨"p2", "2.jpg", 2⟩] =
      [⟨"p2", "1.jpg", 1⟩, ⟨"p1", "2.jpg", 2⟩] := by
  decide

/-- C5 counterexample: the claim says the deleted item receives the name of
position `N = N_before - 1` (the post-deletion count).  Deleting position 1
of a fresh three-photo collection (`N_before = 3`, so the claim demands
`2.jpg`), the code assigns the deleted `1.jpg` the name
`(newPhotos.length + 1).jpg = 3.jpg` — the pre-deletion count. -/
theorem C5_counterexample_pre_deletion_count :
    planLookup (handlePhotoDelete gridFresh3 "sku-1" "p1").plan "sku-1" "1.jpg" =
      some "3.jpg" ∧
    some ("3.jpg" : String) ≠ some "2.jpg" := by
  decide

/-- C7 counterexample: the claim says no-op entries are never recorded and
that deleting the last item contributes no rename entries.  Deleting the
last photo `3.jpg` of a fresh three-photo collection, the code records the
no-op entry `3.jpg → 3.jpg` (the relocation of the deleted photo is written
unconditionally), so the contribution is non-empty and violates
old ≠ new. -/
theorem C7_counterexample_noop_entry_recorded :
    objGet (handlePhotoDelete gridFresh3 "sku-1" "p3").plan "sku-1" =
      some [("3.jpg", "3.jpg")] ∧
    (("3.jpg", "3.jpg") : String × String).1 = ("3.jpg", "3.jpg").2 ∧
    ([("3.jpg", "3.jpg")] : InnerMap) ≠ [] := by
  decide

theorem insertSorted_perm (a : Photo) (l : List Photo) :
    (insertSorted a l).Perm (a :: l) := by
  induction l with
  | nil => exact List.Perm.refl _
  | cons b t ih =>
    simp only [insertSorted]
    by_cases h : fileNum a.filename ≤ fileNum b.filename
    · rw [if_pos h]
    · rw [if_neg h]
      exact (ih.cons b).trans (List.Perm.swap a b t)

theorem sortByNum_perm (l : List Photo) : (sortByNum l).Perm l := by
  induction l with
  | nil => exact List.Perm.refl _
  | cons a t ih => exact (insertSorted_perm a (sortByNum t)).trans (ih.cons a)

theorem renumber_map_filename (l : List Photo) :
    (renumber l).map Photo.filename = l.map Photo.filename := by
  unfold renumber
  rw [List.map_map]
  have h : (Photo.filename ∘ fun p : Nat × Photo => { p.2 with order := p.1 + 1 })
      = Photo.filename ∘ Prod.snd := rfl
  rw [h, ← List.map_map, List.enum_map_snd]

/-- C4 amended: effective-order reconciliation resolves each raw filename
by applying the plan's mapping exactly once (a single lookup; a name with
no entry resolves to itself); it always terminates and produces a complete
display listing — the displayed filenames are exactly the single-step
resolutions of the raw names — and it performs no cycle detection and has
no error outcome (there is no `CorruptPlan` condition in the code), even
when the mapping contains a cycle. -/
theorem C4_amended_single_application_no_error (inner : InnerMap)
    (photos : List Photo) :
    ((applyInstructions inner photos).map Photo.filename).Perm
      (photos.map (fun ph => resolveName inner ph.filename)) := by
  unfold applyInstructions
  rw [renumber_map_filename]
  refine ((sortByNum_perm _).map Photo.filename).trans ?_
  rw [List.map_map]
  exact List.Perm.refl _

/-- C5 amended: for every `DeleteAt` that passes the guards, the deleted
item is assigned the positional name of `N_after + 1 = N_before` — one past
the new last slot, i.e. the pre-deletion count — not `N_after`:
the recorded entry is `deletedName → (newPhotos.length + 1).jpg`. -/
theorem C5_amended_deleted_gets_pre_deletion_count (st : GridState)
    (sku photoId : String) (pIdx : Nat) (product : Product) (ph : Photo)
    (h1 : st.products.findIdx? (fun p => p.sku == sku) = some pIdx)
    (h2 : st.products[pIdx]? = some product)
    (h3 : product.photos.find? (fun p => p.id == photoId) = some ph) :
    planLookup (handlePhotoDelete st sku photoId).plan sku ph.filename =
      some (toString ((product.photos.filter (fun p => p.id ≠ photoId)).length + 1)
        ++ ".jpg") := by
  simp only [handlePhotoDelete, h1, h2, h3]
  simp [planLookup, objGet_objSet_self]

/-- Witness for the amended C5: deleting position 1 of the fresh three-photo
collection records `1.jpg → 3.jpg` (`newPhotos.length = 2`). -/
theorem C5_amended_witness :
    planLookup (handlePhotoDelete gridFresh3 "sku-1" "p1").plan "sku-1" "1.jpg" =
      some "3.jpg" := by
  have h := C5_amended_deleted_gets_pre_deletion_count gridFresh3 "sku-1" "p1" 0
    ⟨"sku-1", photosFresh3⟩ ⟨"p1", "1.jpg", 1⟩ (by decide) (by decide) (by decide)
  exact h.trans (by decide)

/-- C6: for a `DeleteAt` at 0-based index `d` (1-based position
`pos = d + 1`) on a collection with pairwise-distinct filenames, the
compiled contribution resolves every photo at 0-based index `i` with
`d < i < N_before` (1-based position `k = i + 1 ≤ N_before`) to the name
`i.jpg` of position `k - 1`, and contains no entry keyed by the filename of
any photo at an index `i < d` (a position strictly before `pos`). -/
theorem C6_shift_down_and_earlier_untouched (photos : List Photo) (d : Nat)
    (ph_d : Photo) (lastPosition : Nat)
    (hnd : (photos.map Photo.filename).Nodup)
    (hd : photos[d]? = some ph_d) :
    (∀ (i : Nat) (ph_i : Photo), photos[i]? = some ph_i → d < i →
        resolveName (compiledDelete photos d ph_d.filename lastPosition)
          ph_i.filename = toString i ++ ".jpg") ∧
    (∀ (i : Nat) (ph_i : Photo), photos[i]? = some ph_i → i < d →
        objGet (compiledDelete photos d ph_d.filename lastPosition)
          ph_i.filename = none) := by
  have hmap : (withIdx (d + 1) (photos.drop (d + 1))).map
      (fun q => (Prod.snd q).filename) = (photos.map Photo.filename).drop (d + 1) := by
    rw [withIdx_map_snd_filename, List.map_drop]
  have hndshift : ((withIdx (d + 1) (photos.drop (d + 1))).map
      (fun q => (Prod.snd q).filename)).Nodup := by
    rw [hmap]
    exact hnd.sublist (List.drop_sublist (d + 1) (photos.map Photo.filename))
  constructor
  · intro i ph_i hi hdi
    have hne_d : ph_d.filename ≠ ph_i.filename :=
      mapped_nodup_ne Photo.filename photos d i ph_d ph_i hnd hd hi (by omega)
    have hdrop : (photos.drop (d + 1))[i - (d + 1)]? = some ph_i := by
      rw [List.getElem?_drop]
      have heq : (d + 1) + (i - (d + 1)) = i := by omega
      rw [heq]
      exact hi
    have hm := withIdx_mem (photos.drop (d + 1)) (d + 1) (i - (d + 1)) ph_i hdrop
    rw [show (d + 1) + (i - (d + 1)) = i from by omega] at hm
    simp only [resolveName, compiledDelete, deleteShift]
    rw [objGet_objSet_ne _ _ _ _ hne_d,
      shiftFold_objGet_mem _ _ i ph_i hndshift hm]
    by_cases hEq : ph_i.filename = toString i ++ ".jpg"
    · rw [if_pos hEq]
      simp [objGet, hEq]
    · rw [if_neg hEq]
      rfl
  · intro i ph_i hi hid
    have hne_d : ph_d.filename ≠ ph_i.filename :=
      mapped_nodup_ne Photo.filename photos d i ph_d ph_i hnd hd hi (by omega)
    have hnotin : ph_i.filename ∉ (photos.map Photo.filename).drop (d + 1) := by
      refine nodup_not_mem_drop (photos.map Photo.filename) i (d + 1)
        ph_i.filename hnd ?_ (by omega)
      rw [List.getElem?_map, hi]
      rfl
    have hforall : ∀ q ∈ withIdx (d + 1) (photos.drop (d + 1)),
        (Prod.snd q).filename ≠ ph_i.filename := by
      intro q hq hcontra
      have hqmem : (Prod.snd q).filename ∈ (withIdx (d + 1) (photos.drop (d + 1))).map
          (fun q => (Prod.snd q).filename) := List.mem_map_of_mem _ hq
      rw [hmap, hcontra] at hqmem
      exact hnotin hqmem
    simp only [compiledDelete, deleteShift]
    rw [objGet_objSet_ne _ _ _ _ hne_d,
      shiftFold_objGet_of_forall_ne _ _ _ hforall]
    rfl

/-- Witness for C6: deleting the middle photo of the fresh three-photo
collection resolves `3.jpg` (index 2) to `2.jpg`, and records no entry for
`1.jpg` (index 0, before the deleted position). -/
theorem C6_witness :
    resolveName (compiledDelete photosFresh3 1 "2.jpg" 2) "3.jpg" = "2.jpg" ∧
    objGet (compiledDelete photosFresh3 1 "2.jpg" 2) "1.jpg" = none := by
  have h := C6_shift_down_and_earlier_untouched photosFresh3 1
    ⟨"p2", "2.jpg", 2⟩ 2 (by decide) (by decide)
  exact ⟨(h.1 2 ⟨"p3", "3.jpg", 3⟩ (by decide) (by decide)).trans (by decide),
    h.2 0 ⟨"p1", "1.jpg", 1⟩ (by decide) (by decide)⟩

/-- C7 amended: every entry contributed by the shift loop of a delete
satisfies old ≠ new, and so do both entries of a swap of two distinct
filenames; but the relocation entry for the deleted photo is recorded
unconditionally and can be a no-op: deleting the last photo of a freshly
numbered collection contributes exactly the no-op entry `N.jpg → N.jpg`
instead of an empty contribution. -/
theorem C7_amended_noop_free_except_deleted_entry :
    (∀ (l : List (Nat × Photo)) (inner : InnerMap) (p : String × String),
        p ∈ shiftFold l inner → p ∈ inner ∨ p.1 ≠ p.2) ∧
    (∀ (inner : InnerMap) (a b : String), a ≠ b →
        ∀ p ∈ objSet (objSet inner a b) b a, p ∈ inner ∨ p.1 ≠ p.2) ∧
    objGet (compiledDelete photosFresh3 2 "3.jpg" 2) "3.jpg" = some "3.jpg" := by
  refine ⟨?_, ?_, by decide⟩
  · intro l inner p hp
    rcases shiftFold_mem l inner p hp with h | h
    · exact Or.inl h
    · rcases h with ⟨n, hn, hne⟩
      exact Or.inr hne
  · intro inner a b hab p hp
    rcases mem_objSet _ _ _ _ hp with h | h
    · subst h
      exact Or.inr (Ne.symm hab)
    · rcases mem_objSet _ _ _ _ h with h' | h'
      · subst h'
        exact Or.inr hab
      · exact Or.inl h'

/-- Witness for the amended C7: the second swap entry of swapping `1.jpg`
and `2.jpg` into an empty mapping satisfies old ≠ new. -/
theorem C7_amended_witness :
    (("2.jpg", "1.jpg") : String × String) ∈ ([] : InnerMap) ∨
      ("2.jpg" : String) ≠ "1.jpg" :=
  C7_amended_noop_free_except_deleted_entry.2.1 [] "1.jpg" "2.jpg" (by decide)
    ("2.jpg", "1.jpg") (by decide)

/-- C8: every swap or delete that references something missing is rejected
with no state change at all: a drag with no `over` target, onto itself,
across two collections, for a sku not in the product list, or with a photo
id absent from the product, and likewise a delete for an unknown sku or an
unknown photo id, each return the `GridState` — Sequence Model and
accumulated plan — unchanged. -/
theorem C8_invalid_operations_change_nothing
    (st : GridState) (ev : DragEvent) (sku photoId : String)
    (pIdx : Nat) (product : Product) :
    (ev.over = none → handleDragEnd st ev = st) ∧
    (∀ o : DragOver, ev.over = some o → ev.activeId = o.id →
      handleDragEnd st ev = st) ∧
    (∀ o : DragOver, ev.over = some o → ev.activeSku ≠ o.sku →
      handleDragEnd st ev = st) ∧
    (st.products.findIdx? (fun p => p.sku == ev.activeSku) = none →
      handleDragEnd st ev = st) ∧
    (∀ o : DragOver, ev.over = some o →
      st.products.findIdx? (fun p => p.sku == ev.activeSku) = some pIdx →
      st.products[pIdx]? = some product →
      product.photos.findIdx? (fun p => p.id == ev.activeId) = none →
      handleDragEnd st ev = st) ∧
    (∀ o : DragOver, ev.over = some o →
      st.products.findIdx? (fun p => p.sku == ev.activeSku) = some pIdx →
      st.products[pIdx]? = some product →
      product.photos.findIdx? (fun p => p.id == o.id) = none →
      handleDragEnd st ev = st) ∧
    (st.products.findIdx? (fun p => p.sku == sku) = none →
      handlePhotoDelete st sku photoId = st) ∧
    (st.products.findIdx? (fun p => p.sku == sku) = some pIdx →
      st.products[pIdx]? = some product →
      product.photos.find? (fun p => p.id == photoId) = none →
      handlePhotoDelete st sku photoId = st) := by
  refine ⟨?_, ?_, ?_, ?_, ?_, ?_, ?_, ?_⟩
  · intro h
    simp [handleDragEnd, h]
  · intro o ho hid
    simp [handleDragEnd, ho, hid]
  · intro o ho hsku
    simp only [handleDragEnd, ho]
    by_cases hid : ev.activeId = o.id
    · rw [if_pos hid]
    · rw [if_neg hid, if_pos hsku]
  · intro hfind
    cases hov : ev.over with
    | none => simp [handleDragEnd, hov]
    | some o =>
      simp only [handleDragEnd, hov]
      by_cases hid : ev.activeId = o.id
      · rw [if_pos hid]
      · rw [if_neg hid]
        by_cases hsku : ev.activeSku ≠ o.sku
        · rw [if_pos hsku]
        · rw [if_neg hsku]
          simp [hfind]
  · intro o ho h1 h2 h3
    simp only [handleDragEnd, ho]
    by_cases hid : ev.activeId = o.id
    · rw [if_pos hid]
    · rw [if_neg hid]
      by_cases hsku : ev.activeSku ≠ o.sku
      · rw [if_pos hsku]
      · rw [if_neg hsku]
        simp only [h1, h2, h3]
  · intro o ho h1 h2 h3
    simp only [handleDragEnd, ho]
    by_cases hid : ev.activeId = o.id
    · rw [if_pos hid]
    · rw [if_neg hid]
      by_cases hsku : ev.activeSku ≠ o.sku
      · rw [if_pos hsku]
      · rw [if_neg hsku]
        simp only [h1, h2, h3]
        cases product.photos.findIdx? (fun p => p.id == ev.activeId) <;> rfl
  · intro hfind
    simp [handlePhotoDelete, hfind]
  · intro h1 h2 h3
    simp only [handlePhotoDelete, h1, h2, h3]

/-- Witness for C8: a drag event with no `over` element leaves the fresh
three-photo state untouched. -/
theorem C8_witness :
    handleDragEnd gridFresh3 ⟨"p1", "sku-1", none⟩ = gridFresh3 :=
  (C8_invalid_operations_change_nothing gridFresh3 ⟨"p1", "sku-1", none⟩
    "sku-1" "p1" 0 ⟨"sku-1", photosFresh3⟩).1 rfl

/-- C9 counterexample: the claim says the previously held plan value,
including each collection's inner mapping, is not mutated in place.  After
the swap update for a collection that already has accumulated entries, the
plan value observed through the *old* outer object has changed: the shared
inner object was written through the reference the shallow spread copy
kept. -/
theorem C9_counterexample_inner_mutated_in_place :
    viewPlan (swapInstructionsHeap heap0 outer0 "sku-1" "1.jpg" "3.jpg").1 outer0 ≠
      viewPlan heap0 outer0 ∧
    viewPlan (swapInstructionsHeap heap0 outer0 "sku-1" "1.jpg" "3.jpg").1 outer0 =
      [("sku-1", [("1.jpg", "3.jpg"), ("2.jpg", "1.jpg"), ("3.jpg", "1.jpg")])] := by
  decide

/-- C9 amended: the operation does return a new outer plan object with the
old entry set (the spread copy), but for a collection that already has an
inner mapping the update writes through the shared reference: the returned
outer object is entry-for-entry the old one, and the store afterwards holds,
at that same shared reference, the flat-overwritten mapping — so the
previously held plan observes the change, and only an absent collection
gets a freshly allocated inner object. -/
theorem C9_amended_outer_copied_inner_shared (h : Heap) (outer : OuterRefs)
    (sku a b : String) (r : Nat) (hr : objGet outer sku = some r) :
    (swapInstructionsHeap h outer sku a b).2 = outer ∧
    (swapInstructionsHeap h outer sku a b).1.store =
      objSet h.store r
        (objSet (objSet ((objGet h.store r).getD []) a b) b a) := by
  simp [swapInstructionsHeap, hr]

/-- Witness for the amended C9, at the accumulated-swap heap. -/
theorem C9_amended_witness :
    (swapInstructionsHeap heap0 outer0 "sku-1" "1.jpg" "3.jpg").2 = outer0 ∧
    (swapInstructionsHeap heap0 outer0 "sku-1" "1.jpg" "3.jpg").1.store =
      objSet heap0.store 0
        (objSet (objSet ((objGet heap0.store 0).getD []) "1.jpg" "3.jpg")
          "3.jpg" "1.jpg") :=
  C9_amended_outer_copied_inner_shared heap0 outer0 "sku-1" "1.jpg" "3.jpg" 0
    (by decide)

/-- C10: every new name the delete compilation records is `n.jpg` for some
position `n`, whatever the extension of the item's current filename — the
name is built from the target position alone — and concretely, deleting
position 1 of a collection whose third file is `3.png` maps `3.png` to
`2.jpg`, so extensions are not preserved. -/
theorem C10_delete_forces_jpg_extension :
    (∀ (photos : List Photo) (d lastPosition : Nat) (f : String)
        (p : String × String), p ∈ compiledDelete photos d f lastPosition →
        ∃ n : Nat, p.2 = toString n ++ ".jpg") ∧
    planLookup (handlePhotoDelete gridWithPng "sku-1" "p1").plan "sku-1" "3.png" =
      some "2.jpg" := by
  constructor
  · intro photos d lp f p hp
    rcases mem_objSet _ _ _ _ hp with h | h
    · subst h
      exact ⟨lp + 1, rfl⟩
    · rcases shiftFold_mem _ _ _ h with h' | h'
      · exact absurd h' (List.not_mem_nil p)
      · rcases h' with ⟨n, hn, hne⟩
        exact ⟨n, hn⟩
  · decide

/-- Witness for C10: the shift entry for `3.png` has a `.jpg` value. -/
theorem C10_witness :
    ∃ n : Nat, (("3.png", "2.jpg") : String × String).2 = toString n ++ ".jpg" :=
  C10_delete_forces_jpg_extension.1
    [⟨"p1", "1.jpg", 1⟩, ⟨"p2", "2.jpg", 2⟩, ⟨"p3", "3.png", 3⟩] 0 2 "1.jpg"
    ("3.png", "2.jpg") (by decide)
